import Mathlib

/-!
Verification of the `dinglebit/config` configuration library.

Shallow embedding of the repository's four modules (`lib.rs`, `multi.rs`,
`simple.rs`, `env.rs`) over `List Char` strings, together with proofs of
the specified behaviour of the typed accessors, the multi-source chain,
the simple key/value parser and the environment-variable adapter.

Rust strings are modelled as `List Char`; Rust's ASCII-relevant case
mapping (`to_uppercase` / `to_lowercase`) is modelled on the ASCII range,
which is the range the library's key transformations and the boolean
truthy set exercise.  `HashMap<String, String>` is modelled as the
function `Str → Option Str` obtained by folding `insert` (insert
overwrites, exactly as `HashMap::insert` does).  The process environment
is passed explicitly as a function `Str → Option Str`.
-/

namespace DinglebitConfig

/-- Rust `String` / `&str`, modelled as its character sequence. -/
abbrev Str := List Char

/-- ASCII whitespace test used by Rust's `char::is_whitespace` on the
inputs this library manipulates. -/
def isWs (c : Char) : Bool :=
  c == ' ' || c == '\t' || c == '\n' || c == '\r'

/-- Rust `str::trim_matches(pat)` with a `char` predicate: repeatedly
removes matching characters from both ends. -/
def trimMatches (p : Char → Bool) (s : Str) : Str :=
  ((s.dropWhile p).reverse.dropWhile p).reverse

/-- Rust `str::trim()`. -/
def trim (s : Str) : Str := trimMatches isWs s

/-- Rust `str::split(sep)` for a single-character separator: splits on
every occurrence; the empty string yields one empty piece. -/
def splitCh (sep : Char) : Str → List Str
  | [] => [[]]
  | c :: rest =>
    match splitCh sep rest with
    | [] => [[]]
    | h :: t => if c = sep then [] :: h :: t else (c :: h) :: t

/-- Rust `str::splitn(2, sep)` for a single-character separator: at most
one split, at the first occurrence. -/
def splitn2 (sep : Char) : Str → List Str
  | [] => [[]]
  | c :: rest =>
    if c = sep then [[], rest]
    else
      match splitn2 sep rest with
      | [] => [[c]]
      | h :: t => (c :: h) :: t

/-- Rust `str::split("=>")`: splits on every non-overlapping occurrence
of the two-character separator `=>`, scanning left to right. -/
def splitArrow : Str → List Str
  | [] => [[]]
  | [c] => [[c]]
  | c1 :: c2 :: rest =>
    if c1 = '=' ∧ c2 = '>' then [] :: splitArrow rest
    else
      match splitArrow (c2 :: rest) with
      | [] => [[c1]]
      | h :: t => (c1 :: h) :: t

/-- Whether the two-character separator `=>` occurs in the string. -/
def hasArrow : Str → Bool
  | [] => false
  | [_] => false
  | c1 :: c2 :: rest => (c1 == '=' && c2 == '>') || hasArrow (c2 :: rest)

/-- The 26 lower→upper ASCII letter pairs. -/
def upPairs : List (Char × Char) :=
  [('a','A'), ('b','B'), ('c','C'), ('d','D'), ('e','E'), ('f','F'),
   ('g','G'), ('h','H'), ('i','I'), ('j','J'), ('k','K'), ('l','L'),
   ('m','M'), ('n','N'), ('o','O'), ('p','P'), ('q','Q'), ('r','R'),
   ('s','S'), ('t','T'), ('u','U'), ('v','V'), ('w','W'), ('x','X'),
   ('y','Y'), ('z','Z')]

/-- ASCII model of Rust `char` uppercasing (as performed by
`str::to_uppercase` on the characters this library's keys use). -/
def upChar (c : Char) : Char :=
  match upPairs.find? (fun p => p.1 == c) with
  | some p => p.2
  | none => c

/-- ASCII model of Rust `char` lowercasing. -/
def lowChar (c : Char) : Char :=
  match upPairs.find? (fun p => p.2 == c) with
  | some p => p.1
  | none => c

/-- Rust `str::to_uppercase` (ASCII model). -/
def toUpperStr (s : Str) : Str := s.map upChar

/-- Rust `str::to_lowercase` (ASCII model). -/
def toLowerStr (s : Str) : Str := s.map lowChar

/-! Module `lib.rs`: the `Config` trait's derived typed accessors

A configuration source is modelled as its `get` method, a function
`Str → Option Str`.  `must_get` panics on an absent key; a panicking
computation is modelled by propagating `none` through the typed getters
(`…Get` wrappers below). -/

/-- A `Config`-capable source: its `get(key)` method. -/
abbrev Source := Str → Option Str

/-- The character class stripped by `Config::list`:
`|c| c == '[' || c == ']' || char::is_whitespace(c)`. -/
def listTrimP (c : Char) : Bool := c == '[' || c == ']' || isWs c

/-- Model of `Config::list` applied to a present raw value: strip the bracket /
whitespace characters from both ends, split on `,`, trim each piece. -/
def listOf (v : Str) : List Str :=
  let s := trimMatches listTrimP v
  (splitCh ',' s).map trim

/-- The character class stripped by `Config::map`:
`|c| c == '{' || c == '}' || char::is_whitespace(c)`. -/
def mapTrimP (c : Char) : Bool := c == '{' || c == '}' || isWs c

/-- One entry of `Config::map`: split the piece on `=>`, trim every
part; with fewer than two parts the value is the empty string, otherwise
key and value are the first two parts (`parts[0]`, `parts[1]`). -/
def mapEntry (p : Str) : Str × Str :=
  match (splitArrow p).map trim with
  | [] => ([], [])
  | [k] => (k, [])
  | k :: v :: _ => (k, v)

/-- The ordered entry list produced by `Config::map` before it is
collected into a `HashMap`. -/
def mapEntries (v : Str) : List (Str × Str) :=
  let s := trimMatches mapTrimP v
  (splitCh ',' s).map mapEntry

/-- Insertion into a `HashMap`: overwrite the binding of one key. -/
def insertKV (m : Source) (kv : Str × Str) : Source :=
  fun k => if k = kv.1 then some kv.2 else m k

/-- Collecting an entry iterator into a `HashMap<String, String>`:
inserts in order, so a later binding of a key overwrites an earlier
one. -/
def collectKV (l : List (Str × Str)) (m : Source) : Source :=
  l.foldl insertKV m

/-- Model of `Config::map` applied to a present raw value, as the lookup
function of the resulting `HashMap`. -/
def mapOf (v : Str) : Source :=
  collectKV (mapEntries v) (fun _ => none)

/-- Model of `Config::bool` applied to a present raw value: lower-case, then
match against the fixed truthy set. -/
def boolOf (v : Str) : Bool :=
  let s := toLowerStr v
  s == "t".data || s == "true".data || s == "1".data ||
  s == "y".data || s == "yes".data

/-- Rust `str::parse::<i64>()`: optional sign, at least one ASCII digit,
value within `i64` bounds; anything else is a parse error. -/
def parseI64 (s : Str) : Option Int :=
  let (sign, digits) : Int × Str :=
    match s with
    | '+' :: rest => (1, rest)
    | '-' :: rest => (-1, rest)
    | _ => (1, s)
  if digits = [] then none
  else if digits.all (fun c => c.isDigit) then
    let n : Nat := digits.foldl (fun acc c => acc * 10 + (c.toNat - '0'.toNat)) 0
    let v : Int := sign * (n : Int)
    if -(2 ^ 63) ≤ v ∧ v < 2 ^ 63 then some v else none
  else none

/-- Model of `Config::get` through a source. -/
def getK (g : Source) (k : Str) : Option Str := g k

/-- Model of `Config::must_get`: the raw value, or a panic (modelled `none`). -/
def mustGet (g : Source) (k : Str) : Option Str := g k

/-- Model of `Config::list` as a getter (`none` models the `must_get` panic). -/
def listGet (g : Source) (k : Str) : Option (List Str) :=
  (mustGet g k).map listOf

/-- Model of `Config::map` as a getter (`none` models the `must_get` panic). -/
def mapGet (g : Source) (k : Str) : Option Source :=
  (mustGet g k).map mapOf

/-- Model of `Config::bool` as a getter (`none` models the `must_get` panic). -/
def boolGet (g : Source) (k : Str) : Option Bool :=
  (mustGet g k).map boolOf

/-- Model of `Config::int` as a getter: `none` models both panics (absent key
and unparseable value). -/
def intGet (g : Source) (k : Str) : Option Int :=
  (mustGet g k).bind parseI64

/-! Module `multi.rs`: `MultiConfig`. -/

namespace MultiConfig

/-- Model of `MultiConfig::get`: probe the sources in construction order and
return the first present value. -/
def get (configs : List Source) (key : Str) : Option Str :=
  match configs with
  | [] => none
  | config :: rest =>
    match config key with
    | some value => some value
    | none => get rest key

end MultiConfig

/-! Module `simple.rs`: the `Simple` string/file source -/

namespace Simple

/-- Model of `simple::Error`: file read failure or a malformed line. -/
inductive Error where
  | file (msg : Str)
  | invalidKeyValuePair
  deriving DecidableEq

/-- Model of `simple::parse_line`: trim, skip comments and blank lines, split on
the first `=` into exactly a key and a value, each trimmed. -/
def parseLine (line : Str) : Except Error (Option (Str × Str)) :=
  let line := trim line
  if line.head? = some '#' then .ok none
  else if line.length < 1 then .ok none
  else
    let parts := splitn2 '=' line
    if parts.length < 2 then .error .invalidKeyValuePair
    else .ok (some (trim (parts.getD 0 []), trim (parts.getD 1 [])))

/-- The line loop of `simple::parse`, with the accumulated table made
explicit: an `Err` from `parse_line` aborts, `Ok(None)` lines are
skipped, pairs are inserted (overwriting) into the table. -/
def parseLines : List Str → Source → Except Error Source
  | [], values => .ok values
  | line :: rest, values =>
    match parseLine line with
    | .error e => .error e
    | .ok none => parseLines rest values
    | .ok (some kv) => parseLines rest (insertKV values kv)

/-- Model of `simple::parse`: split the input on `\n` and run the line loop on an
empty table. -/
def parse (s : Str) : Except Error Source :=
  parseLines (splitCh '\n' s) (fun _ => none)

/-- Model of `Simple::from_str` followed by `Config::get` on one key; `none`
(outer) models failed construction. -/
def fromStrGet (s : Str) (k : Str) : Option (Option Str) :=
  match parse s with
  | .ok values => some (values k)
  | .error _ => none

end Simple

/-! Module `env.rs`: the `Environment` source. -/

namespace Environment

/-- Model of `Environment::new`: the stored prefix is the argument with `_`
appended when non-empty, and empty otherwise. -/
def new (pfx : Str) : Str :=
  if pfx.length > 0 then pfx ++ ['_'] else []

/-- Rust `str::replace(".", "_")` on one character. -/
def replDot (c : Char) : Char := if c = '.' then '_' else c

/-- Rust `str::replace("/", "_")` on one character. -/
def replSlash (c : Char) : Char := if c = '/' then '_' else c

/-- Rust `key.replace(".", "_").replace("/", "_")`. -/
def replUnd (s : Str) : Str := (s.map replDot).map replSlash

/-- The key transformation of `Environment::get`: prepend the stored
prefix, replace `.` and `/` with `_`, upper-case everything.  `stored`
is the prefix as held by the struct (output of `new`). -/
def envKey (stored : Str) (key : Str) : Str :=
  toUpperStr (replUnd (stored ++ key))

/-- Model of `Environment::get`: transform the key and look it up in the process
environment (passed explicitly as `env`). -/
def get (env : Source) (stored : Str) (key : Str) : Option Str :=
  match env (envKey stored key) with
  | some value => some value
  | none => none

end Environment

/-! Spec-side definitions and concrete fixtures

The definitions below are not translations of the source; they state,
in executable form, what the specification's words describe, so that
spec and code can be compared, plus concrete sources used to
instantiate general theorems. -/

/-- Whether an `Except` computation succeeded. -/
def isOkE : Except ε α → Bool
  | .ok _ => true
  | .error _ => false

/-- Spec-side description of the bracket handling of `list`: trim
whitespace, then strip exactly one pair of surrounding `[` `]` when
both are present, trim again, split on `,`, trim each element. -/
def listSpecOnePair (v : Str) : List Str :=
  let t := trim v
  let t :=
    if t.head? = some '[' ∧ t.getLast? = some ']' then trim (t.drop 1).dropLast
    else t
  (splitCh ',' t).map trim

/-- Spec-side `splitn(2, "=>")`: split only at the first occurrence of
`=>`, keeping everything after it intact. -/
def splitArrow2 : Str → List Str
  | [] => [[]]
  | [c] => [[c]]
  | c1 :: c2 :: rest =>
    if c1 = '=' ∧ c2 = '>' then [[], rest]
    else
      match splitArrow2 (c2 :: rest) with
      | [] => [[c1]]
      | h :: t => (c1 :: h) :: t

/-- Spec-side map entry: key before the first `=>`, value everything
after the first `=>` (the claim's reading), both trimmed. -/
def mapSpecEntry (p : Str) : Str × Str :=
  match (splitArrow2 p).map trim with
  | [] => ([], [])
  | [k] => (k, [])
  | k :: v :: _ => (k, v)

/-- The value read back for one key after the claim's per-line parse:
the trimmed value of the key's last defining line, scanning the lines
of the input; `none` when no line defines the key. -/
def lastDef : List Str → Str → Option Str
  | [], _ => none
  | line :: rest, k =>
    match lastDef rest k with
    | some v => some v
    | none =>
      match Simple.parseLine line with
      | .ok (some kv) => if k = kv.1 then some kv.2 else none
      | _ => none

/-- Example source `A` of the chain-precedence spec: `"x" → "1"`. -/
def srcA : Source := fun k => if k = "x".data then some "1".data else none

/-- Example source `B` of the chain-precedence spec:
`"x" → "2"`, `"y" → "3"`. -/
def srcB : Source := fun k =>
  if k = "x".data then some "2".data
  else if k = "y".data then some "3".data
  else none

/-- A source holding the list value `"[a]"` under key `"k"`. -/
def wSrcList : Source := fun k => if k = "k".data then some "[a]".data else none

/-- A source holding the empty-string value under key `"e"`. -/
def wSrcEmpty : Source := fun k => if k = "e".data then some [] else none

/-- A source holding the empty-string value under key `"m"`. -/
def wSrcMapEmpty : Source := fun k => if k = "m".data then some [] else none

/-- A source holding the unparseable value `"maybe"` under key `"k"`. -/
def wSrcMaybe : Source := fun k => if k = "k".data then some "maybe".data else none

/-- A process environment in which only `A_B_C` is set (to `"v"`). -/
def envOnlyABC : Source := fun s => if s = "A_B_C".data then some "v".data else none

/-- A process environment in which only `FOO_A_B` is set (to `"1"`). -/
def envFooAB : Source := fun s => if s = "FOO_A_B".data then some "1".data else none

/-! Helper lemmas about the chain. -/

/-- Unfolding `MultiConfig::get` when the first source has the key. -/
lemma mget_cons_some {c : Source} {rest : List Source} {k v : Str} (h : c k = some v) :
    MultiConfig.get (c :: rest) k = some v := by
  simp [MultiConfig.get, h]

/-- Unfolding `MultiConfig::get` when the first source lacks the key. -/
lemma mget_cons_none {c : Source} {rest : List Source} {k : Str} (h : c k = none) :
    MultiConfig.get (c :: rest) k = MultiConfig.get rest k := by
  simp [MultiConfig.get, h]

/-- Characterization of a present chain lookup: the answer comes from
the first source that has the key, every earlier source lacking it. -/
lemma mget_some_iff (cs : List Source) (k v : Str) :
    MultiConfig.get cs k = some v ↔
      ∃ pre c post, cs = pre ++ c :: post ∧ (∀ s ∈ pre, s k = none) ∧ c k = some v := by
  induction cs with
  | nil =>
    constructor
    · intro h; simp [MultiConfig.get] at h
    · rintro ⟨pre, c, post, hcs, -, -⟩
      exact absurd hcs (by simp)
  | cons c0 rest ih =>
    constructor
    · intro h
      cases h0 : c0 k with
      | some w =>
        rw [mget_cons_some h0] at h
        obtain rfl : w = v := by injection h
        exact ⟨[], c0, rest, rfl, by simp, h0⟩
      | none =>
        rw [mget_cons_none h0] at h
        obtain ⟨pre, c, post, hcs, hpre, hc⟩ := ih.mp h
        refine ⟨c0 :: pre, c, post, by rw [hcs]; rfl, ?_, hc⟩
        intro s hs
        rcases List.mem_cons.mp hs with rfl | hs
        · exact h0
        · exact hpre s hs
    · rintro ⟨pre, c, post, hcs, hpre, hc⟩
      cases pre with
      | nil =>
        simp only [List.nil_append] at hcs
        injection hcs with h1 h2
        subst h1; subst h2
        exact mget_cons_some hc
      | cons p0 pre' =>
        simp only [List.cons_append] at hcs
        injection hcs with h1 hrest
        subst h1
        have h0 : c0 k = none := hpre c0 (List.mem_cons_self c0 pre')
        rw [mget_cons_none h0]
        exact ih.mpr ⟨pre', c, post, hrest, fun s hs => hpre s (List.mem_cons_of_mem _ hs), hc⟩

/-- An absent chain lookup means every source lacks the key. -/
lemma mget_none_iff (cs : List Source) (k : Str) :
    MultiConfig.get cs k = none ↔ ∀ s ∈ cs, s k = none := by
  induction cs with
  | nil => simp [MultiConfig.get]
  | cons c0 rest ih =>
    constructor
    · intro h s hs
      cases h0 : c0 k with
      | some w => rw [mget_cons_some h0] at h; cases h
      | none =>
        rw [mget_cons_none h0] at h
        rcases List.mem_cons.mp hs with rfl | hs
        · exact h0
        · exact ih.mp h s hs
    · intro h
      have h0 : c0 k = none := h c0 (List.mem_cons_self c0 rest)
      rw [mget_cons_none h0]
      exact ih.mpr fun s hs => h s (List.mem_cons_of_mem _ hs)

/-- C1: a chain probes its sources strictly in construction order and
returns the first present value; if every source is absent the chain is
absent; in particular for `[A, B]` with `A: x→1` and `B: x→2, y→3` the
chain answers `1` for `x`, `3` for `y` and nothing for `z`. -/
theorem multi_get_first_present :
    (∀ (cs : List Source) (k v : Str),
      MultiConfig.get cs k = some v ↔
        ∃ pre c post, cs = pre ++ c :: post ∧ (∀ s ∈ pre, s k = none) ∧ c k = some v) ∧
    (∀ (cs : List Source) (k : Str),
      MultiConfig.get cs k = none ↔ ∀ s ∈ cs, s k = none) ∧
    MultiConfig.get [srcA, srcB] "x".data = some "1".data ∧
    MultiConfig.get [srcA, srcB] "y".data = some "3".data ∧
    MultiConfig.get [srcA, srcB] "z".data = none :=
  ⟨mget_some_iff, mget_none_iff, by decide, by decide, by decide⟩

/-- Witness for C1: the characterization applied to the two-source
example chain at key `y`, whose value comes from the second source. -/
theorem multi_get_first_present_witness :
    MultiConfig.get [srcA, srcB] "y".data = some "3".data :=
  (multi_get_first_present.1 [srcA, srcB] "y".data "3".data).mpr
    ⟨[srcA], srcB, [], rfl,
      by intro s hs; rcases List.mem_singleton.mp hs with rfl; decide,
      by decide⟩

/-- C6: a present value is `true` exactly when its lower-cased form is
one of `t`, `true`, `1`, `y`, `yes`; everything else, including `0`,
`no`, `maybe`, yields `false`; `bool` never fails on a present value,
while `int` does fail on the same unparseable value. -/
theorem bool_truthy_set :
    (∀ v, boolOf v = true ↔
      (toLowerStr v = "t".data ∨ toLowerStr v = "true".data ∨ toLowerStr v = "1".data ∨
       toLowerStr v = "y".data ∨ toLowerStr v = "yes".data)) ∧
    (∀ (g : Source) (k v : Str), g k = some v → boolGet g k = some (boolOf v)) ∧
    boolOf "TRUE".data = true ∧ boolOf "Yes".data = true ∧
    boolOf "0".data = false ∧ boolOf "no".data = false ∧ boolOf "maybe".data = false ∧
    intGet wSrcMaybe "k".data = none ∧ boolGet wSrcMaybe "k".data = some false := by
  refine ⟨fun v => ?_, fun g k v h => ?_, by decide, by decide, by decide, by decide,
    by decide, by decide, by decide⟩
  · simp [boolOf, Bool.or_eq_true, beq_iff_eq, or_assoc]
  · simp [boolGet, mustGet, h]

/-- Witness for C6: the non-failing getter applied to a source holding
the unparseable value `maybe`. -/
theorem bool_truthy_set_witness :
    boolGet wSrcMaybe "k".data = some (boolOf "maybe".data) :=
  bool_truthy_set.2.1 wSrcMaybe "k".data "maybe".data (by decide)

/-- C9: a present empty-string value yields the one-element list
containing the empty string, not the empty list. -/
theorem list_empty_value_singleton :
    ∀ (g : Source) (k : Str), g k = some [] →
      listGet g k = some [([] : Str)] ∧ listGet g k ≠ some [] := by
  intro g k h
  have hv : listOf [] = [([] : Str)] := by decide
  constructor
  · simp [listGet, mustGet, h, hv]
  · simp [listGet, mustGet, h, hv]

/-- Witness for C9: a concrete source holding the empty string under
key `e`. -/
theorem list_empty_value_singleton_witness :
    listGet wSrcEmpty "e".data = some [([] : Str)] ∧ listGet wSrcEmpty "e".data ≠ some [] :=
  list_empty_value_singleton wSrcEmpty "e".data (by decide)

/-! Helper lemmas about `splitn2` and the simple parser. -/

/-- Splitting at the first separator occurrence. -/
lemma splitn2_first {sep : Char} : ∀ (a b : Str), sep ∉ a →
    splitn2 sep (a ++ sep :: b) = [a, b] := by
  intro a
  induction a with
  | nil => intro b h; simp [splitn2]
  | cons c a' ih =>
    intro b h
    have hc : ¬ c = sep := by rintro rfl; exact h (List.mem_cons_self _ _)
    have hr := ih b fun hm => h (List.mem_cons_of_mem c hm)
    simp [splitn2, hc, hr]

/-- Splitting a string that does not contain the separator. -/
lemma splitn2_no_sep {sep : Char} : ∀ {l : Str}, sep ∉ l → splitn2 sep l = [l] := by
  intro l
  induction l with
  | nil => intro h; rfl
  | cons c rest ih =>
    intro h
    have hc : ¬ c = sep := by rintro rfl; exact h (List.mem_cons_self _ _)
    have hr := ih fun hm => h (List.mem_cons_of_mem c hm)
    simp [splitn2, hc, hr]

/-- The only construction error `parse_line` ever produces is the
format error. -/
lemma parseLine_error_eq : ∀ (l : Str) (e : Simple.Error),
    Simple.parseLine l = .error e → e = .invalidKeyValuePair := by
  intro l e h
  simp only [Simple.parseLine] at h
  repeat' split at h
  all_goals cases h
  all_goals rfl

/-- A malformed member line makes the whole line loop fail with the
format error. -/
lemma parseLines_error_of_mem : ∀ (lines : List Str) (m : Source) (line : Str),
    line ∈ lines → Simple.parseLine line = .error Simple.Error.invalidKeyValuePair →
    Simple.parseLines lines m = .error Simple.Error.invalidKeyValuePair := by
  intro lines
  induction lines with
  | nil => intro m line h; cases h
  | cons l rest ih =>
    intro m line hm hp
    rcases List.mem_cons.mp hm with rfl | hm
    · simp [Simple.parseLines, hp]
    · cases he : Simple.parseLine l with
      | error e =>
        have := parseLine_error_eq l e he
        subst this
        simp [Simple.parseLines, he]
      | ok o =>
        cases o with
        | none =>
          simp only [Simple.parseLines, he]
          exact ih m line hm hp
        | some kv =>
          simp only [Simple.parseLines, he]
          exact ih _ line hm hp

/-- C7: each line of the Simple format is trimmed; comment and blank
lines yield no entry; a remaining line splits at its first `=` into a
trimmed key and a trimmed value; a remaining line without `=` is the
format error, which makes construction fail and is distinct from the
file-error kind; including the spec's three concrete examples. -/
theorem simple_parse_line_spec :
    (∀ line : Str, (trim line).head? = some '#' → Simple.parseLine line = .ok none) ∧
    (∀ line : Str, trim line = [] → Simple.parseLine line = .ok none) ∧
    (∀ (line a b : Str), (trim line).head? ≠ some '#' → trim line = a ++ '=' :: b →
      '=' ∉ a → Simple.parseLine line = .ok (some (trim a, trim b))) ∧
    (∀ line : Str, (trim line).head? ≠ some '#' → trim line ≠ [] → '=' ∉ trim line →
      Simple.parseLine line = .error Simple.Error.invalidKeyValuePair) ∧
    (∀ msg : Str, Simple.Error.file msg ≠ Simple.Error.invalidKeyValuePair) ∧
    (∀ (s line : Str), line ∈ splitCh '\n' s →
      Simple.parseLine line = .error Simple.Error.invalidKeyValuePair →
      Simple.parse s = .error Simple.Error.invalidKeyValuePair) ∧
    Simple.parseLine "  # comment".data = .ok none ∧
    Simple.parseLine "  test".data = .error Simple.Error.invalidKeyValuePair ∧
    Simple.parseLine "  foo = bar  ".data = .ok (some ("foo".data, "bar".data)) := by
  refine ⟨?_, ?_, ?_, ?_, ?_, ?_, by rfl, by rfl, by rfl⟩
  · intro line h
    simp [Simple.parseLine, h]
  · intro line h
    simp [Simple.parseLine, h]
  · intro line a b hno heq ha
    have hlen : ¬ (trim line).length < 1 := by rw [heq]; simp
    have hsp : splitn2 '=' (trim line) = [a, b] := by rw [heq]; exact splitn2_first a b ha
    simp [Simple.parseLine, hno, hlen, hsp]
  · intro line hno hne hnin
    have hlen : ¬ (trim line).length < 1 := by
      simp [Nat.lt_one_iff, List.length_eq_zero, hne]
    have hsp : splitn2 '=' (trim line) = [trim line] := splitn2_no_sep hnin
    simp [Simple.parseLine, hno, hlen, hsp]
  · intro msg h
    cases h
  · intro s line hm hp
    exact parseLines_error_of_mem (splitCh '\n' s) _ line hm hp

/-- Witness for C7: the key/value branch applied to the concrete line
`x=y`. -/
theorem simple_parse_line_spec_witness :
    Simple.parseLine "x=y".data = .ok (some (trim "x".data, trim "y".data)) :=
  simple_parse_line_spec.2.2.1 "x=y".data "x".data "y".data (by decide) (by decide) (by decide)

/-- Lookup in the table built by the line loop: the last defining line
wins, and keys no line defines fall through to the initial table. -/
lemma parseLines_lookup : ∀ (lines : List Str) (m0 m : Source) (k : Str),
    Simple.parseLines lines m0 = .ok m →
    m k = (match lastDef lines k with | some v => some v | none => m0 k) := by
  intro lines
  induction lines with
  | nil =>
    intro m0 m k h
    injection h with h'
    subst h'
    simp [lastDef]
  | cons line rest ih =>
    intro m0 m k h
    cases hp : Simple.parseLine line with
    | error e => simp [Simple.parseLines, hp] at h
    | ok o =>
      cases o with
      | none =>
        simp only [Simple.parseLines, hp] at h
        rw [ih m0 m k h]
        simp only [lastDef, hp]
        cases lastDef rest k <;> simp
      | some kv =>
        simp only [Simple.parseLines, hp] at h
        rw [ih (insertKV m0 kv) m k h]
        simp only [lastDef, hp]
        cases lastDef rest k with
        | some v => simp
        | none => by_cases hk : k = kv.1 <;> simp [insertKV, hk]

/-- C8: when a string parses successfully, reading any key back from
the resulting Simple config returns exactly the trimmed value of that
key's last defining line, and `none` for keys no line defines. -/
theorem simple_roundtrip_last_write :
    ∀ s : Str, isOkE (Simple.parse s) = true →
      ∀ k, Simple.fromStrGet s k = some (lastDef (splitCh '\n' s) k) := by
  intro s h k
  cases hp : Simple.parse s with
  | error e => rw [hp] at h; simp [isOkE] at h
  | ok values =>
    simp only [Simple.fromStrGet, hp]
    have hp' : Simple.parseLines (splitCh '\n' s) (fun _ => none) = .ok values := hp
    rw [parseLines_lookup (splitCh '\n' s) (fun _ => none) values k hp']
    cases lastDef (splitCh '\n' s) k <;> simp

/-- Witness for C8: a three-line input with a duplicate key; the later
line wins and an undefined key reads back as absent. -/
theorem simple_roundtrip_last_write_witness :
    Simple.fromStrGet "a=1\na=2\nb=3".data "a".data = some (some "2".data) ∧
    Simple.fromStrGet "a=1\na=2\nb=3".data "z".data = some none :=
  ⟨(simple_roundtrip_last_write "a=1\na=2\nb=3".data (by decide) "a".data).trans (by decide),
   (simple_roundtrip_last_write "a=1\na=2\nb=3".data (by decide) "z".data).trans (by decide)⟩

/-! Helper lemmas about `trim_matches`, `split` and `HashMap` collection. -/

/-- The first element surviving `dropWhile` fails the predicate. -/
lemma dropWhile_head_false {p : Char → Bool} : ∀ {l : Str} {c : Char},
    (l.dropWhile p).head? = some c → p c = false := by
  intro l
  induction l with
  | nil => intro c h; cases h
  | cons a l ih =>
    intro c h
    rw [List.dropWhile_cons] at h
    by_cases ha : p a = true
    · rw [if_pos ha] at h; exact ih h
    · rw [if_neg ha] at h
      injection h with h'
      subst h'
      simpa using ha

/-- Decomposition of a string around `trim_matches`: what is removed on
either side consists of matching characters only. -/
lemma trimMatches_decomp (p : Char → Bool) (s : Str) :
    ∃ pre suf, s = pre ++ trimMatches p s ++ suf ∧ pre.all p = true ∧ suf.all p = true := by
  refine ⟨s.takeWhile p, ((s.dropWhile p).reverse.takeWhile p).reverse, ?_, ?_, ?_⟩
  · have h2 : (s.dropWhile p).reverse.takeWhile p ++ (s.dropWhile p).reverse.dropWhile p
        = (s.dropWhile p).reverse := List.takeWhile_append_dropWhile p (s.dropWhile p).reverse
    calc s = s.takeWhile p ++ s.dropWhile p := (List.takeWhile_append_dropWhile p s).symm
    _ = s.takeWhile p ++ ((s.dropWhile p).reverse).reverse := by rw [List.reverse_reverse]
    _ = s.takeWhile p ++
        ((s.dropWhile p).reverse.takeWhile p ++ (s.dropWhile p).reverse.dropWhile p).reverse := by
      rw [h2]
    _ = s.takeWhile p ++
        (trimMatches p s ++ ((s.dropWhile p).reverse.takeWhile p).reverse) := by
      rw [List.reverse_append]; rfl
    _ = s.takeWhile p ++ trimMatches p s ++ ((s.dropWhile p).reverse.takeWhile p).reverse := by
      rw [List.append_assoc]
  · rw [List.all_eq_true]; intro x hx; exact List.mem_takeWhile_imp hx
  · rw [List.all_eq_true]; intro x hx
    exact List.mem_takeWhile_imp (List.mem_reverse.mp hx)

/-- The stripping of `trim_matches` is maximal on the left: the first
remaining character fails the predicate. -/
lemma trimMatches_head_false (p : Char → Bool) (s : Str) (c : Char)
    (h : (trimMatches p s).head? = some c) : p c = false := by
  have hpre : trimMatches p s ++ ((s.dropWhile p).reverse.takeWhile p).reverse
      = s.dropWhile p := by
    have h2 := List.takeWhile_append_dropWhile p (s.dropWhile p).reverse
    conv_rhs => rw [← List.reverse_reverse (s.dropWhile p), ← h2]
    rw [List.reverse_append]
    rfl
  cases ht : trimMatches p s with
  | nil => rw [ht] at h; cases h
  | cons c0 rest =>
    rw [ht] at h
    injection h with h'
    subst h'
    have hh : (s.dropWhile p).head? = some c0 := by rw [← hpre, ht]; rfl
    exact dropWhile_head_false hh

/-- The stripping of `trim_matches` is maximal on the right: the last
remaining character fails the predicate. -/
lemma trimMatches_last_false (p : Char → Bool) (s : Str) (c : Char)
    (h : (trimMatches p s).getLast? = some c) : p c = false := by
  have hx : ((s.dropWhile p).reverse.dropWhile p).head? = some c := by
    rw [← List.getLast?_reverse]
    exact h
  exact dropWhile_head_false hx

/-- C2 (counterexample): on the value `[[1]]` the accessor strips both
bracket pairs, whereas stripping exactly one pair would keep `[1]`. -/
theorem list_one_pair_counterexample :
    listOf "[[1]]".data = ["1".data] ∧
    listSpecOnePair "[[1]]".data = ["[1]".data] ∧
    listOf "[[1]]".data ≠ listSpecOnePair "[[1]]".data := by
  exact ⟨by decide, by decide, by decide⟩

/-- C2 (amended): `list` strips all leading and trailing characters
drawn from `[`, `]` and whitespace (maximally, pairing not required),
then splits on `,` and trims each element; the spec's two examples hold,
and `[[1]]` yields `["1"]`. -/
theorem list_trim_all_edges :
    (∀ (g : Source) (k v : Str), g k = some v → listGet g k = some (listOf v)) ∧
    (∀ v, ∃ pre suf, v = pre ++ trimMatches listTrimP v ++ suf ∧
      pre.all listTrimP = true ∧ suf.all listTrimP = true) ∧
    (∀ v c, (trimMatches listTrimP v).head? = some c → listTrimP c = false) ∧
    (∀ v c, (trimMatches listTrimP v).getLast? = some c → listTrimP c = false) ∧
    (∀ v, listOf v = (splitCh ',' (trimMatches listTrimP v)).map trim) ∧
    listOf "[1, 2, 3]".data = ["1".data, "2".data, "3".data] ∧
    listOf "1,2,3".data = ["1".data, "2".data, "3".data] ∧
    listOf "[[1]]".data = ["1".data] := by
  refine ⟨fun g k v h => by simp [listGet, mustGet, h],
    fun v => trimMatches_decomp listTrimP v,
    fun v c h => trimMatches_head_false listTrimP v c h,
    fun v c h => trimMatches_last_false listTrimP v c h,
    fun v => rfl, by decide, by decide, by decide⟩

/-- Witness for C2: the amended accessor applied to a source holding
`[a]` under key `k`. -/
theorem list_trim_all_edges_witness :
    listGet wSrcList "k".data = some (listOf "[a]".data) :=
  list_trim_all_edges.1 wSrcList "k".data "[a]".data (by decide)

/-- Splitting on `=>` leaves a separator-free string whole. -/
lemma splitArrow_no_arrow : ∀ l : Str, hasArrow l = false → splitArrow l = [l] := by
  intro l
  induction l with
  | nil => intro _; rfl
  | cons c1 l' ih =>
    intro h
    cases l' with
    | nil => rfl
    | cons c2 rest =>
      simp only [hasArrow, Bool.or_eq_false_iff] at h
      have hcond : ¬ (c1 = '=' ∧ c2 = '>') := by
        rintro ⟨rfl, rfl⟩
        simp at h
      simp only [splitArrow]
      rw [if_neg hcond, ih h.2]

/-- Splitting on `=>` at a separator following a separator-free
block. -/
lemma splitArrow_sep : ∀ (a b : Str), hasArrow a = false →
    splitArrow (a ++ '=' :: '>' :: b) = a :: splitArrow b := by
  intro a
  induction a with
  | nil =>
    intro b _
    simp [splitArrow]
  | cons c1 a' ih =>
    intro b h
    cases a' with
    | nil =>
      simp [splitArrow]
    | cons c2 a'' =>
      simp only [hasArrow, Bool.or_eq_false_iff] at h
      have hcond : ¬ (c1 = '=' ∧ c2 = '>') := by
        rintro ⟨rfl, rfl⟩
        simp at h
      have hrec := ih b h.2
      simp only [List.cons_append] at hrec ⊢
      simp only [splitArrow]
      rw [if_neg hcond, hrec]

/-- Lookup in a collected `HashMap`: the last insertion of a key wins,
otherwise the initial table answers. -/
lemma collectKV_lookup : ∀ (l : List (Str × Str)) (m : Source) (k : Str),
    collectKV l m k = (match l.reverse.find? (fun kv => kv.1 == k) with
      | some kv => some kv.2
      | none => m k) := by
  intro l
  induction l with
  | nil => intro m k; rfl
  | cons kv t ih =>
    intro m k
    have hl : collectKV (kv :: t) m k = collectKV t (insertKV m kv) k := rfl
    rw [hl, ih (insertKV m kv) k, List.reverse_cons, List.find?_append]
    cases hf : t.reverse.find? (fun kv' => kv'.1 == k) with
    | some kv' => simp
    | none =>
      by_cases hk : k = kv.1
      · subst hk
        simp [insertKV, List.find?]
      · have hbk : (kv.1 == k) = false := by
          simp [beq_iff_eq]
          exact fun e => hk e.symm
        simp [insertKV, hk, List.find?, hbk]

/-- C3 (counterexample): in the entry `a=>b=>c` the stored value is
`b`, the segment between the first and second separator, not `b=>c`;
and on `{{a=>1}}` both brace pairs are stripped, so the key is `a`, not
`{a`. -/
theorem map_arrow_counterexample :
    mapOf "a=>b=>c".data "a".data = some "b".data ∧
    mapSpecEntry "a=>b=>c".data = ("a".data, "b=>c".data) ∧
    ("b".data : Str) ≠ "b=>c".data ∧
    mapOf "\x7b\x7ba=>1\x7d\x7d".data "a".data = some "1".data ∧
    mapOf "\x7b\x7ba=>1\x7d\x7d".data "\x7ba".data = none := by
  exact ⟨by decide, by decide, by decide, by decide, by decide⟩

/-- C3 (amended): entries are split on every `=>`; the key is the part
before the first separator and the value the part between the first and
second separator (trimmed), entries without `=>` getting the empty
value; all leading and trailing `{`, `}` and whitespace characters are
stripped; the last occurrence of a key wins. -/
theorem map_entry_splitting :
    (∀ (g : Source) (k v : Str), g k = some v → mapGet g k = some (mapOf v)) ∧
    (∀ v k, mapOf v k = (match (mapEntries v).reverse.find? (fun kv => kv.1 == k) with
        | some kv => some kv.2
        | none => none)) ∧
    (∀ p : Str, hasArrow p = false → mapEntry p = (trim p, [])) ∧
    (∀ a b : Str, hasArrow a = false → hasArrow b = false →
      mapEntry (a ++ '=' :: '>' :: b) = (trim a, trim b)) ∧
    (∀ a b c : Str, hasArrow a = false → hasArrow b = false →
      mapEntry (a ++ '=' :: '>' :: (b ++ '=' :: '>' :: c)) = (trim a, trim b)) ∧
    (∀ v, mapEntries v = (splitCh ',' (trimMatches mapTrimP v)).map mapEntry) ∧
    (∀ v c, (trimMatches mapTrimP v).head? = some c → mapTrimP c = false) ∧
    (∀ v c, (trimMatches mapTrimP v).getLast? = some c → mapTrimP c = false) ∧
    mapOf "\x7ba=>1, b=>2, c=>3\x7d".data "a".data = some "1".data ∧
    mapOf "\x7ba=>1, b=>2, c=>3\x7d".data "b".data = some "2".data ∧
    mapOf "\x7ba=>1, b=>2, c=>3\x7d".data "c".data = some "3".data ∧
    mapOf "\x7ba=>1, b=>2, c=>3\x7d".data "d".data = none ∧
    mapOf "\x7ba=>1, a=>2\x7d".data "a".data = some "2".data := by
  have hlast : ∀ v k, mapOf v k =
      (match (mapEntries v).reverse.find? (fun kv => kv.1 == k) with
        | some kv => some kv.2
        | none => none) := by
    intro v k
    rw [show mapOf v k = collectKV (mapEntries v) (fun _ => none) k from rfl, collectKV_lookup]
  refine ⟨fun g k v h => by simp [mapGet, mustGet, h],
    hlast,
    fun p h => by simp [mapEntry, splitArrow_no_arrow p h],
    fun a b ha hb => by simp [mapEntry, splitArrow_sep a _ ha, splitArrow_no_arrow b hb],
    fun a b c ha hb => by simp [mapEntry, splitArrow_sep a _ ha, splitArrow_sep b _ hb],
    fun v => rfl,
    fun v c h => trimMatches_head_false mapTrimP v c h,
    fun v c h => trimMatches_last_false mapTrimP v c h,
    by decide, by decide, by decide, by decide, by decide⟩

/-- Witness for C3: the single-separator entry rule applied to the
concrete entry `x=>y`. -/
theorem map_entry_splitting_witness :
    mapEntry ("x".data ++ '=' :: '>' :: "y".data) = (trim "x".data, trim "y".data) :=
  map_entry_splitting.2.2.2.1 "x".data "y".data (by decide) (by decide)

/-- Splitting on a character never produces an empty piece list. -/
lemma splitCh_ne_nil : ∀ (sep : Char) (l : Str), splitCh sep l ≠ [] := by
  intro sep l
  cases l with
  | nil => simp [splitCh]
  | cons c rest =>
    rcases h : splitCh sep rest with - | ⟨hh, tt⟩ <;> simp [splitCh, h]
    split <;> simp

/-- C10: a present value always produces a non-empty table, and the
empty-string value produces exactly the single entry mapping the empty
key to the empty value. -/
theorem map_never_empty :
    (∀ (g : Source) (q v : Str), g q = some v → mapGet g q = some (mapOf v)) ∧
    (∀ v, ∃ k val, mapOf v k = some val) ∧
    (∀ k, mapOf [] k = if k = [] then some ([] : Str) else none) := by
  refine ⟨fun g q v h => by simp [mapGet, mustGet, h], fun v => ?_, fun k => rfl⟩
  have hne : mapEntries v ≠ [] := by
    simp only [mapEntries]
    intro hmap
    exact splitCh_ne_nil ',' (trimMatches mapTrimP v) (List.map_eq_nil_iff.mp hmap)
  obtain ⟨e, t, ht⟩ : ∃ e t, (mapEntries v).reverse = e :: t := by
    cases hr : (mapEntries v).reverse with
    | nil =>
      have : mapEntries v = [] := by
        rw [← List.reverse_reverse (mapEntries v), hr]
        rfl
      exact absurd this hne
    | cons e t => exact ⟨e, t, rfl⟩
  refine ⟨e.1, e.2, ?_⟩
  rw [show mapOf v e.1 = collectKV (mapEntries v) (fun _ => none) e.1 from rfl,
    collectKV_lookup, ht]
  simp [List.find?]

/-- Witness for C10: the getter applied to a source holding the empty
string under key `m`. -/
theorem map_never_empty_witness :
    mapGet wSrcMapEmpty "m".data = some (mapOf []) :=
  map_never_empty.1 wSrcMapEmpty "m".data [] (by decide)

/-! Helper lemmas about the environment key transformation. -/

/-- Facts about the targets of the ASCII upper-case mapping: they are
neither `.` nor `/` and upper-casing fixes them. -/
lemma upPairs_snd_facts :
    ∀ pr ∈ upPairs, pr.2 ≠ '.' ∧ pr.2 ≠ '/' ∧ upChar pr.2 = pr.2 := by decide

/-- One application of replace-then-uppercase on a character absorbs a
second one. -/
lemma upRepl_char_idem (c : Char) :
    upChar (Environment.replSlash (Environment.replDot
        (upChar (Environment.replSlash (Environment.replDot c)))))
      = upChar (Environment.replSlash (Environment.replDot c)) := by
  have hd : Environment.replSlash (Environment.replDot c) ≠ '.' := by
    unfold Environment.replDot Environment.replSlash
    split_ifs <;> simp_all
  have hs : Environment.replSlash (Environment.replDot c) ≠ '/' := by
    unfold Environment.replDot Environment.replSlash
    split_ifs <;> simp_all
  cases hf : upPairs.find? (fun p => p.1 == Environment.replSlash (Environment.replDot c)) with
  | none =>
    have hu : upChar (Environment.replSlash (Environment.replDot c))
        = Environment.replSlash (Environment.replDot c) := by
      simp [upChar, hf]
    rw [hu,
      show Environment.replDot (Environment.replSlash (Environment.replDot c))
          = Environment.replSlash (Environment.replDot c) from if_neg hd,
      show Environment.replSlash (Environment.replSlash (Environment.replDot c))
          = Environment.replSlash (Environment.replDot c) from if_neg hs,
      hu]
  | some pr =>
    have hmem := List.mem_of_find?_eq_some hf
    obtain ⟨h1, h2, h3⟩ := upPairs_snd_facts pr hmem
    have hu : upChar (Environment.replSlash (Environment.replDot c)) = pr.2 := by
      simp [upChar, hf]
    rw [hu,
      show Environment.replDot pr.2 = pr.2 from if_neg h1,
      show Environment.replSlash pr.2 = pr.2 from if_neg h2,
      h3]

/-- Replace-then-uppercase is idempotent on whole strings. -/
lemma envTransform_idem (s : Str) :
    toUpperStr (Environment.replUnd (toUpperStr (Environment.replUnd s)))
      = toUpperStr (Environment.replUnd s) := by
  induction s with
  | nil => rfl
  | cons c s ih =>
    simp only [Environment.replUnd, toUpperStr, List.map_cons] at ih ⊢
    rw [List.cons.injEq]
    exact ⟨upRepl_char_idem c, ih⟩

/-- Replacement distributes over concatenation. -/
lemma replUnd_append (a b : Str) :
    Environment.replUnd (a ++ b) = Environment.replUnd a ++ Environment.replUnd b := by
  simp [Environment.replUnd]

/-- Replacement is the identity on strings without `.` and `/`. -/
lemma replUnd_no_dots : ∀ p : Str, (∀ c ∈ p, c ≠ '.' ∧ c ≠ '/') →
    Environment.replUnd p = p := by
  intro p
  induction p with
  | nil => intro _; rfl
  | cons c p' ih =>
    intro h
    obtain ⟨h1, h2⟩ := h c (List.mem_cons_self c p')
    have hr := ih fun x hx => h x (List.mem_cons_of_mem c hx)
    simp only [Environment.replUnd, List.map_cons] at hr ⊢
    rw [List.cons.injEq]
    refine ⟨?_, hr⟩
    simp [Environment.replDot, Environment.replSlash, h1, h2]

/-- Unfolding `Environment::get` to a plain environment lookup of the
transformed key. -/
lemma env_get_eq (env : Source) (stored k : Str) :
    Environment.get env stored k = env (Environment.envKey stored k) := by
  cases h : env (Environment.envKey stored k) <;> simp [Environment.get, h]

/-- The stored prefix of a non-empty construction prefix. -/
lemma env_new_ne_nil {p : Str} (hp : p ≠ []) : Environment.new p = p ++ ['_'] := by
  simp [Environment.new, List.length_pos.mpr hp]

/-- The length of a transformed key. -/
lemma envKey_length (stored key : Str) :
    (Environment.envKey stored key).length = stored.length + key.length := by
  simp [Environment.envKey, Environment.replUnd, toUpperStr]

/-- C4 (counterexample): with prefix `a.b` and key `c` the adapter
looks up `A_B_C` — the replacement is applied to the prefix as well —
whereas the claim's formula addresses `A.B_C`: in an environment where
only `A_B_C` is set, the adapter finds the value, the claim's formula
does not. -/
theorem env_prefix_replace_counterexample :
    Environment.get envOnlyABC (Environment.new "a.b".data) "c".data = some "v".data ∧
    Environment.envKey (Environment.new "a.b".data) "c".data = "A_B_C".data ∧
    toUpperStr ("a.b".data ++ '_' :: Environment.replUnd "c".data) = "A.B_C".data ∧
    envOnlyABC (toUpperStr ("a.b".data ++ '_' :: Environment.replUnd "c".data)) = none := by
  exact ⟨by decide, by decide, by decide, by decide⟩

/-- C4 (amended): the adapter looks up
`UPPER(REPLACE(prefix + "_" + key))` — replacement applied to the whole
concatenation; the claim's formula `UPPER(prefix + "_" + REPLACE(key))`
holds whenever the prefix itself contains no `.` or `/`; the empty
prefix prepends nothing; the answer is the environment value when the
variable is set and absent otherwise. -/
theorem env_key_transform :
    (∀ (env : Source) (p k : Str), p ≠ [] →
      Environment.get env (Environment.new p) k
        = env (toUpperStr (Environment.replUnd (p ++ '_' :: k)))) ∧
    (∀ (env : Source) (p k : Str), p ≠ [] → (∀ c ∈ p, c ≠ '.' ∧ c ≠ '/') →
      Environment.get env (Environment.new p) k
        = env (toUpperStr (p ++ '_' :: Environment.replUnd k))) ∧
    (∀ (env : Source) (k : Str),
      Environment.get env (Environment.new []) k
        = env (toUpperStr (Environment.replUnd k))) ∧
    (∀ (env : Source) (stored k v : Str),
      env (Environment.envKey stored k) = some v → Environment.get env stored k = some v) ∧
    (∀ (env : Source) (stored k : Str),
      env (Environment.envKey stored k) = none → Environment.get env stored k = none) := by
  have hgen : ∀ (env : Source) (p k : Str), p ≠ [] →
      Environment.get env (Environment.new p) k
        = env (toUpperStr (Environment.replUnd (p ++ '_' :: k))) := by
    intro env p k hp
    rw [env_get_eq, env_new_ne_nil hp]
    have : (p ++ ['_']) ++ k = p ++ '_' :: k := by
      rw [List.append_assoc]
      rfl
    rw [Environment.envKey, this]
  refine ⟨hgen, ?_, ?_, ?_, ?_⟩
  · intro env p k hp hcl
    rw [hgen env p k hp,
      show (p ++ '_' :: k : Str) = (p ++ ['_']) ++ k from by rw [List.append_assoc]; rfl,
      replUnd_append, replUnd_append, replUnd_no_dots p hcl,
      show Environment.replUnd ['_'] = ['_'] from rfl, List.append_assoc]
    rfl
  · intro env k
    rw [env_get_eq]
    rfl
  · intro env stored k v h
    rw [env_get_eq, h]
  · intro env stored k h
    rw [env_get_eq, h]

/-- Witness for C4: the claim's formula at the dot-free prefix `foo`
and key `a.b`, in an environment where `FOO_A_B` is set. -/
theorem env_key_transform_witness :
    Environment.get envFooAB (Environment.new "foo".data) "a.b".data
      = envFooAB (toUpperStr ("foo".data ++ '_' :: Environment.replUnd "a.b".data)) :=
  env_key_transform.2.1 envFooAB "foo".data "a.b".data (by decide) (by decide)

/-- C5 (counterexample): with the non-empty prefix `foo` the key
transformation is not idempotent: transforming the transformed key `x`
prepends the prefix again, giving `FOO_FOO_X` instead of `FOO_X`. -/
theorem env_transform_idempotence_counterexample :
    Environment.envKey (Environment.new "foo".data) "x".data = "FOO_X".data ∧
    Environment.envKey (Environment.new "foo".data)
        (Environment.envKey (Environment.new "foo".data) "x".data) = "FOO_FOO_X".data ∧
    ("FOO_FOO_X".data : Str) ≠ "FOO_X".data := by
  exact ⟨by decide, by decide, by decide⟩

/-- C5 (amended): the transformation is a pure function of prefix and
key; it is idempotent exactly for the empty prefix — re-applying the
replace-and-uppercase part changes nothing, but any non-empty prefix is
prepended again on re-application, so the transformed key always
differs. -/
theorem env_transform_idempotent_empty :
    (∀ k : Str,
      Environment.envKey (Environment.new []) (Environment.envKey (Environment.new []) k)
        = Environment.envKey (Environment.new []) k) ∧
    (∀ p k : Str, p ≠ [] →
      Environment.envKey (Environment.new p) (Environment.envKey (Environment.new p) k)
        ≠ Environment.envKey (Environment.new p) k) := by
  constructor
  · intro k
    exact envTransform_idem k
  · intro p k hp heq
    have hlen := congrArg List.length heq
    rw [envKey_length, envKey_length, env_new_ne_nil hp] at hlen
    simp only [List.length_append, List.length_cons, List.length_nil] at hlen
    omega

/-- Witness for C5: idempotence at the empty prefix on key `a.b`, and
failure of idempotence at the concrete prefix `foo` and key `x`. -/
theorem env_transform_idempotent_empty_witness :
    Environment.envKey (Environment.new []) (Environment.envKey (Environment.new []) "a.b".data)
      = Environment.envKey (Environment.new []) "a.b".data ∧
    Environment.envKey (Environment.new "foo".data)
        (Environment.envKey (Environment.new "foo".data) "x".data)
      ≠ Environment.envKey (Environment.new "foo".data) "x".data :=
  ⟨env_transform_idempotent_empty.1 "a.b".data,
   env_transform_idempotent_empty.2 "foo".data "x".data (by decide)⟩

end DinglebitConfig
